import Mathlib

/-!
A shallow embedding of the `clock` package (`src/clock.go`): a deterministic
fake clock for tests, with a sorted registry of pending timers, two timer
delivery modes (one-slot hand-off channel, callback dispatched on a
goroutine), and a deadline-aware context driven by the fake clock.

Go `time.Time` and `time.Duration` are both modeled as unbounded integers
(nanosecond counts); `t.Before u` is `t < u`, `t.After u` is `u < t`,
`t.Add d` is `t + d`.

The persistent sorted set `pendingTimers` is modeled as a list of
`(trigger, id)` pairs kept sorted by the strict order `FakeTimer.Less`
(trigger ascending, then id ascending).  A timer's mutable fields live in an
association list keyed by its `id`; while a timer sits in the registry its
stored trigger never changes (`Reset` removes it first), so the pair kept in
the registry stays in sync with the store.

Instrumentation fields record the externally observable events that the Go
code produces by side effect: `fireLog` records each call of
`FakeTimer.fire` with the fired `(trigger, id)`; `dispatched` records the
callbacks handed to `go fn()`; `blockedSends` counts channel sends
`f.c <- f.trigger` that found the one-slot buffer already occupied (in Go
such a send blocks until a consumer drains the channel).
-/

namespace Clock

/-- The per-timer mutable data of a `FakeTimer`: its trigger instant, its
delivery mode (`isFn = true` means `fn != nil`, callback mode), and the
contents of its one-slot hand-off channel `c`. -/
structure TimerData where
  trigger : Int
  isFn : Bool
  buf : List Int
  deriving Repr, DecidableEq

/-- The state of a `FakeClock` together with every timer it has created.
`pending` is the sorted registry (`pendingTimers`); `timers` stores each
created timer's current data keyed by id; `nextID` is the monotonic id
counter.  `fireLog`, `dispatched` and `blockedSends` instrument fire
events, goroutine dispatches and blocking channel sends. -/
structure ClockState where
  now : Int
  nextID : Int
  timers : List (Int × TimerData)
  pending : List (Int × Int)
  fireLog : List (Int × Int)
  dispatched : List Int
  blockedSends : Nat
  deriving Repr, DecidableEq

/-- `NewFakeClock(now)`. -/
def initClock (t0 : Int) : ClockState :=
  { now := t0, nextID := 0, timers := [], pending := [],
    fireLog := [], dispatched := [], blockedSends := 0 }

/-- Association-list lookup of a timer's data by id. -/
def lookupTimer (id : Int) : List (Int × TimerData) → Option TimerData
  | [] => none
  | (k, td) :: rest => if k = id then some td else lookupTimer id rest

/-- Update the data stored for id `id` (first matching entry). -/
def updateTimer (id : Int) (f : TimerData → TimerData) :
    List (Int × TimerData) → List (Int × TimerData)
  | [] => []
  | (k, td) :: rest =>
    if k = id then (k, f td) :: rest else (k, td) :: updateTimer id f rest

/-- The trigger currently stored for timer `id`, if the timer exists. -/
def triggerOf (s : ClockState) (id : Int) : Option Int :=
  (lookupTimer id s.timers).map (fun td => td.trigger)

/-- `FakeTimer.Less`: trigger ascending, then id ascending — the strict
total order that keys the registry. -/
def timerLess (a b : Int × Int) : Bool :=
  if a.1 < b.1 then true
  else if b.1 < a.1 then false
  else decide (a.2 < b.2)

/-- Sorted-set insertion for the registry, ordered by `timerLess`; an
element comparing equal to an existing one replaces it, as in a set. -/
def insertPending (p : Int × Int) : List (Int × Int) → List (Int × Int)
  | [] => [p]
  | q :: rest =>
    if timerLess p q then p :: q :: rest
    else if timerLess q p then q :: insertPending p rest
    else p :: rest

/-- Sorted-set removal: drops the (unique, in a well-formed registry)
element equal to `p`. -/
def removePending (p : Int × Int) : List (Int × Int) → List (Int × Int)
  | [] => []
  | q :: rest => if q = p then rest else q :: removePending p rest

/-- `FakeTimer.fire`: callback mode hands the callback to `go fn()`;
hand-off mode sends the trigger on the one-slot channel `c`.  A send that
finds the buffer occupied blocks in Go; the model appends the value and
counts the blocked send. -/
def fire (id : Int) (s : ClockState) : ClockState :=
  match lookupTimer id s.timers with
  | none => s
  | some td =>
    if td.isFn then
      { s with dispatched := s.dispatched ++ [id],
               fireLog := s.fireLog ++ [(td.trigger, id)] }
    else
      { s with
        timers := updateTimer id
          (fun t => { t with buf := t.buf ++ [t.trigger] }) s.timers,
        blockedSends := s.blockedSends + (if td.buf = [] then 0 else 1),
        fireLog := s.fireLog ++ [(td.trigger, id)] }

/-- `FakeClock.addTimer`: if the trigger is not after `now` the timer fires
immediately and is not inserted; otherwise it enters the registry. -/
def addTimer (id : Int) (s : ClockState) : ClockState :=
  match lookupTimer id s.timers with
  | none => s
  | some td =>
    if td.trigger ≤ s.now then fire id s
    else { s with pending := insertPending (td.trigger, id) s.pending }

/-- `FakeClock.NewTimer(d)`: a fresh hand-off-mode timer with
`trigger = now + d` and an empty one-slot channel, handed to `addTimer`.
Returns the new state and the timer's id. -/
def newTimer (d : Int) (s : ClockState) : ClockState × Int :=
  let id := s.nextID + 1
  let td : TimerData := { trigger := s.now + d, isFn := false, buf := [] }
  (addTimer id { s with nextID := id, timers := s.timers ++ [(id, td)] }, id)

/-- `FakeClock.AfterFunc(d, fn)` (via `afterFunc`): a fresh callback-mode
timer with `trigger = now + d`, handed to `addTimer`. -/
def afterFunc (d : Int) (s : ClockState) : ClockState × Int :=
  let id := s.nextID + 1
  let td : TimerData := { trigger := s.now + d, isFn := true, buf := [] }
  (addTimer id { s with nextID := id, timers := s.timers ++ [(id, td)] }, id)

theorem fire_pending (id : Int) (s : ClockState) :
    (fire id s).pending = s.pending := by
  unfold fire
  cases lookupTimer id s.timers with
  | none => rfl
  | some td => by_cases h : td.isFn = true <;> simp [h]

theorem fire_now (id : Int) (s : ClockState) : (fire id s).now = s.now := by
  unfold fire
  cases lookupTimer id s.timers with
  | none => rfl
  | some td => by_cases h : td.isFn = true <;> simp [h]

/-- The firing loop of `FakeClock.Advance`: while the least registry element
is due (`!timer.trigger.After(f.now)`), remove it and fire it. -/
def fireLoop (s : ClockState) : ClockState :=
  match h : s.pending with
  | [] => s
  | q :: rest =>
    if q.1 ≤ s.now then fireLoop (fire q.2 { s with pending := rest })
    else s
termination_by s.pending.length
decreasing_by simp [fire_pending, h]

/-- The outcome of `FakeClock.Advance`: either a panic (carrying the state
the program held when it panicked) or the updated state. -/
inductive AdvanceResult where
  | panicked (s : ClockState)
  | ok (s : ClockState)
  deriving Repr, DecidableEq

/-- `FakeClock.Advance(d)`: panics on a negative delta before touching any
state; otherwise moves `now` forward by `d` and runs the firing loop. -/
def advance (s : ClockState) (d : Int) : AdvanceResult :=
  if d < 0 then .panicked s
  else .ok (fireLoop { s with now := s.now + d })

/-- `FakeTimer.Stop`: remove the handle from the registry if present and
report whether it was pending. -/
def stop (id : Int) (s : ClockState) : ClockState × Bool :=
  match lookupTimer id s.timers with
  | none => (s, false)
  | some td =>
    if (td.trigger, id) ∈ s.pending then
      ({ s with pending := removePending (td.trigger, id) s.pending }, true)
    else (s, false)

/-- `FakeTimer.Reset(d)`: record whether the handle was pending, remove it
if so, set `trigger := now + d`, and hand the handle back to `addTimer`. -/
def reset (id : Int) (d : Int) (s : ClockState) : ClockState × Bool :=
  match lookupTimer id s.timers with
  | none => (s, false)
  | some td =>
    let ret := (td.trigger, id) ∈ s.pending
    let s1 :=
      if ret then { s with pending := removePending (td.trigger, id) s.pending }
      else s
    let s2 := { s1 with
      timers := updateTimer id (fun t => { t with trigger := s.now + d }) s1.timers }
    (addTimer id s2, ret)

/-- One externally invokable clock operation, for whole-trace statements. -/
inductive Op where
  | newTimer (d : Int)
  | afterFunc (d : Int)
  | advance (d : Int)
  | stop (id : Int)
  | reset (id : Int) (d : Int)
  deriving Repr, DecidableEq

/-- Run one operation.  A panicking `Advance` aborts without mutating the
state, which is what the Go panic leaves behind. -/
def step (s : ClockState) : Op → ClockState
  | .newTimer d => (newTimer d s).1
  | .afterFunc d => (afterFunc d s).1
  | .advance d =>
    match advance s d with
    | .panicked s' => s'
    | .ok s' => s'
  | .stop id => (stop id s).1
  | .reset id d => (reset id d s).1

/-- Run a sequence of operations from a state. -/
def run (s : ClockState) (ops : List Op) : ClockState := ops.foldl step s

/-- The Go errors a deadline context can resolve with. -/
inductive GoError where
  | deadlineExceeded
  | canceled
  | other (code : Nat)
  deriving Repr, DecidableEq

/-- A parent `context.Context` as `WithTimeout` observes it: whether its
`Done()` channel is closed (and then what `Err()` returns), and what its
`Deadline()` reports. -/
structure ParentCtx where
  resolved : Option GoError
  deadline : Option Int
  deriving Repr, DecidableEq

/-- `FakeDeadlineContext`: parent reference, the `done` channel's
closed-flag, the one-shot resolution slot `err`, and the own deadline. -/
structure FakeDeadlineContext where
  parent : ParentCtx
  doneClosed : Bool
  err : Option GoError
  deadline : Int
  deriving Repr, DecidableEq

/-- `FakeDeadlineContext.setErrorOnce`: compare-and-swap the slot from nil
to `e`; on success (and only then) close `done`. -/
def setErrorOnce (e : GoError) (ctx : FakeDeadlineContext) : FakeDeadlineContext :=
  if ctx.err = none then { ctx with err := some e, doneClosed := true } else ctx

/-- `FakeDeadlineContext.Err`: nil until `done` is closed, then the stored
error. -/
def ctxErr (ctx : FakeDeadlineContext) : Option GoError :=
  if ctx.doneClosed then ctx.err else none

/-- `FakeDeadlineContext.Deadline`: the parent's deadline when it exposes
one and it is earlier than the own deadline, else the own deadline; `ok` is
always true. -/
def ctxDeadline (ctx : FakeDeadlineContext) : Int × Bool :=
  match ctx.parent.deadline with
  | some pd => if pd < ctx.deadline then (pd, true) else (ctx.deadline, true)
  | none => (ctx.deadline, true)

/-- What `FakeClock.WithTimeout` returns, minus the background watcher
goroutine: the clock state after the call, the new context, and the id of
the internal `afterFunc` timer when one was registered. -/
structure WithTimeoutResult where
  state : ClockState
  ctx : FakeDeadlineContext
  timerID : Option Int
  deriving Repr, DecidableEq

/-- `FakeClock.WithTimeout(parent, d)`: build the context with
`deadline = now + d`; if `d <= 0` resolve it at once as deadline-exceeded
and register nothing; else if the parent is already done, inherit the
parent's error and register nothing; else register an internal
callback-mode timer at `d`. -/
def withTimeout (parent : ParentCtx) (d : Int) (s : ClockState) :
    WithTimeoutResult :=
  let ctx0 : FakeDeadlineContext :=
    { parent := parent, doneClosed := false, err := none, deadline := s.now + d }
  if d ≤ 0 then
    { state := s, ctx := setErrorOnce .deadlineExceeded ctx0, timerID := none }
  else
    match parent.resolved with
    | some pe => { state := s, ctx := setErrorOnce pe ctx0, timerID := none }
    | none =>
      let r := afterFunc d s
      { state := r.1, ctx := ctx0, timerID := some r.2 }

/-! ### Facts about the registry order `timerLess` -/

theorem timerLess_iff (a b : Int × Int) :
    timerLess a b = true ↔ a.1 < b.1 ∨ (a.1 = b.1 ∧ a.2 < b.2) := by
  unfold timerLess
  split_ifs with h1 h2
  · simp only [true_iff]
    exact Or.inl h1
  · simp only [Bool.false_eq_true, false_iff]
    rintro (h | ⟨he, hs⟩)
    · exact h1 h
    · omega
  · simp only [decide_eq_true_eq]
    constructor
    · intro h
      exact Or.inr ⟨by omega, h⟩
    · rintro (h | ⟨he, hs⟩)
      · exact absurd h h1
      · exact hs

theorem timerLess_trans {a b c : Int × Int}
    (hab : timerLess a b = true) (hbc : timerLess b c = true) :
    timerLess a c = true := by
  rw [timerLess_iff] at hab hbc ⊢
  rcases hab with h | ⟨h1, h2⟩ <;> rcases hbc with h' | ⟨h1', h2'⟩
  · exact Or.inl (by omega)
  · exact Or.inl (by omega)
  · exact Or.inl (by omega)
  · exact Or.inr ⟨by omega, by omega⟩

theorem timerLess_irrefl (a : Int × Int) : ¬ timerLess a a = true := by
  rw [timerLess_iff]
  rintro (h | ⟨_, h⟩) <;> omega

theorem eq_of_not_timerLess {a b : Int × Int}
    (h1 : ¬ timerLess a b = true) (h2 : ¬ timerLess b a = true) : a = b := by
  rw [timerLess_iff] at h1 h2
  have hfst : a.1 = b.1 := by
    by_contra hne
    rcases lt_or_gt_of_ne hne with h | h
    · exact h1 (Or.inl h)
    · exact h2 (Or.inl h)
  have hsnd : a.2 = b.2 := by
    by_contra hne
    rcases lt_or_gt_of_ne hne with h | h
    · exact h1 (Or.inr ⟨hfst, h⟩)
    · exact h2 (Or.inr ⟨hfst.symm, h⟩)
  exact Prod.ext hfst hsnd

theorem fst_le_of_timerLess {a b : Int × Int}
    (h : timerLess a b = true) : a.1 ≤ b.1 := by
  rw [timerLess_iff] at h
  rcases h with h | ⟨h, _⟩ <;> omega

/-- A `timerLess`-sorted list has no duplicates. -/
theorem nodup_of_pairwise_timerLess {l : List (Int × Int)}
    (h : l.Pairwise (fun a b => timerLess a b = true)) : l.Nodup :=
  h.imp (fun hab => by rintro rfl; exact timerLess_irrefl _ hab)

/-! ### Facts about `lookupTimer` and `updateTimer` -/

theorem lookupTimer_mem {id : Int} {ts : List (Int × TimerData)} {td : TimerData}
    (h : lookupTimer id ts = some td) : (id, td) ∈ ts := by
  induction ts with
  | nil => simp [lookupTimer] at h
  | cons p rest ih =>
    obtain ⟨k, v⟩ := p
    by_cases hk : k = id
    · subst hk
      simp [lookupTimer] at h
      subst h
      exact List.mem_cons_self _ _
    · simp [lookupTimer, hk] at h
      exact List.mem_cons_of_mem _ (ih h)

theorem lookupTimer_eq_none {id : Int} {ts : List (Int × TimerData)}
    (h : ∀ p ∈ ts, p.1 ≠ id) : lookupTimer id ts = none := by
  induction ts with
  | nil => rfl
  | cons p rest ih =>
    obtain ⟨k, v⟩ := p
    have hk : k ≠ id := h (k, v) (List.mem_cons_self _ _)
    simp only [lookupTimer, if_neg hk]
    exact ih (fun q hq => h q (List.mem_cons_of_mem _ hq))

theorem lookupTimer_append_of_some {id : Int} {ts l : List (Int × TimerData)}
    {td : TimerData} (h : lookupTimer id ts = some td) :
    lookupTimer id (ts ++ l) = some td := by
  induction ts with
  | nil => simp [lookupTimer] at h
  | cons p rest ih =>
    obtain ⟨k, v⟩ := p
    by_cases hk : k = id <;> simp [lookupTimer, hk] at h ⊢
    · exact h
    · exact ih h

theorem lookupTimer_append_of_none {id : Int} {ts l : List (Int × TimerData)}
    (h : lookupTimer id ts = none) :
    lookupTimer id (ts ++ l) = lookupTimer id l := by
  induction ts with
  | nil => rfl
  | cons p rest ih =>
    obtain ⟨k, v⟩ := p
    by_cases hk : k = id <;> simp [lookupTimer, hk] at h ⊢
    exact ih h

theorem lookupTimer_update_self (id : Int) (f : TimerData → TimerData)
    (ts : List (Int × TimerData)) :
    lookupTimer id (updateTimer id f ts) = (lookupTimer id ts).map f := by
  induction ts with
  | nil => rfl
  | cons p rest ih =>
    obtain ⟨k, v⟩ := p
    by_cases hk : k = id <;> simp [updateTimer, lookupTimer, hk, ih]

theorem lookupTimer_update_ne {id' id : Int} (hne : id' ≠ id)
    (f : TimerData → TimerData) (ts : List (Int × TimerData)) :
    lookupTimer id' (updateTimer id f ts) = lookupTimer id' ts := by
  induction ts with
  | nil => rfl
  | cons p rest ih =>
    obtain ⟨k, v⟩ := p
    by_cases hk : k = id
    · subst hk
      have : ¬ k = id' := fun h => hne h.symm
      simp [updateTimer, lookupTimer, this]
    · by_cases hk' : k = id'
      · subst hk'
        simp [updateTimer, lookupTimer, hk]
      · simp [updateTimer, lookupTimer, hk, hk', ih]

theorem updateTimer_map_fst (id : Int) (f : TimerData → TimerData)
    (ts : List (Int × TimerData)) :
    (updateTimer id f ts).map (fun p => p.1) = ts.map (fun p => p.1) := by
  induction ts with
  | nil => rfl
  | cons p rest ih =>
    obtain ⟨k, v⟩ := p
    by_cases hk : k = id <;> simp [updateTimer, hk, ih]

/-! ### Facts about `insertPending` and `removePending` -/

theorem mem_insertPending {b p : Int × Int} {l : List (Int × Int)}
    (h : b ∈ insertPending p l) : b = p ∨ b ∈ l := by
  induction l with
  | nil => simpa [insertPending] using h
  | cons q rest ih =>
    unfold insertPending at h
    split_ifs at h with h1 h2
    · rcases List.mem_cons.mp h with h' | h'
      · exact Or.inl h'
      · exact Or.inr h'
    · rcases List.mem_cons.mp h with h' | h'
      · exact Or.inr (by simp [h'])
      · rcases ih h' with h'' | h''
        · exact Or.inl h''
        · exact Or.inr (List.mem_cons_of_mem _ h'')
    · rcases List.mem_cons.mp h with h' | h'
      · exact Or.inl h'
      · exact Or.inr (List.mem_cons_of_mem _ h')

theorem self_mem_insertPending (p : Int × Int) (l : List (Int × Int)) :
    p ∈ insertPending p l := by
  induction l with
  | nil => simp [insertPending]
  | cons q rest ih =>
    unfold insertPending
    split_ifs with h1 h2
    · exact List.mem_cons_self _ _
    · exact List.mem_cons_of_mem _ ih
    · exact List.mem_cons_self _ _

theorem mem_insertPending_of_mem {b : Int × Int} {l : List (Int × Int)}
    (p : Int × Int) (h : b ∈ l) : b ∈ insertPending p l := by
  induction l with
  | nil => simp at h
  | cons q rest ih =>
    unfold insertPending
    split_ifs with h1 h2
    · exact List.mem_cons_of_mem _ h
    · rcases List.mem_cons.mp h with h' | h'
      · exact h' ▸ List.mem_cons_self _ _
      · exact List.mem_cons_of_mem _ (ih h')
    · rcases List.mem_cons.mp h with h' | h'
      · have : q = p := eq_of_not_timerLess h2 h1
        exact (h'.trans this) ▸ List.mem_cons_self _ _
      · exact List.mem_cons_of_mem _ h'

theorem insertPending_pairwise {l : List (Int × Int)} (p : Int × Int)
    (h : l.Pairwise (fun a b => timerLess a b = true)) :
    (insertPending p l).Pairwise (fun a b => timerLess a b = true) := by
  induction l with
  | nil => simp [insertPending]
  | cons q rest ih =>
    rw [List.pairwise_cons] at h
    obtain ⟨hq, hrest⟩ := h
    unfold insertPending
    split_ifs with h1 h2
    · rw [List.pairwise_cons]
      refine ⟨?_, List.Pairwise.cons hq hrest⟩
      intro b hb
      rcases List.mem_cons.mp hb with h' | h'
      · exact h' ▸ h1
      · exact timerLess_trans h1 (hq b h')
    · rw [List.pairwise_cons]
      refine ⟨?_, ih hrest⟩
      intro b hb
      rcases mem_insertPending hb with h' | h'
      · exact h' ▸ h2
      · exact hq b h'
    · have hpq : q = p := eq_of_not_timerLess h2 h1
      rw [List.pairwise_cons]
      exact ⟨fun b hb => hpq ▸ hq b hb, hrest⟩

theorem removePending_sublist (p : Int × Int) (l : List (Int × Int)) :
    (removePending p l).Sublist l := by
  induction l with
  | nil => simp [removePending]
  | cons q rest ih =>
    unfold removePending
    split_ifs with h
    · exact List.sublist_cons_self _ _
    · exact List.Sublist.cons₂ _ ih

theorem mem_of_mem_removePending {b p : Int × Int} {l : List (Int × Int)}
    (h : b ∈ removePending p l) : b ∈ l :=
  (removePending_sublist p l).subset h

theorem removePending_pairwise {l : List (Int × Int)} (p : Int × Int)
    (h : l.Pairwise (fun a b => timerLess a b = true)) :
    (removePending p l).Pairwise (fun a b => timerLess a b = true) :=
  h.sublist (removePending_sublist p l)

theorem not_mem_removePending_self {p : Int × Int} {l : List (Int × Int)}
    (h : l.Nodup) : p ∉ removePending p l := by
  induction l with
  | nil => simp [removePending]
  | cons q rest ih =>
    rw [List.nodup_cons] at h
    obtain ⟨hq, hrest⟩ := h
    unfold removePending
    split_ifs with he
    · exact he ▸ hq
    · intro hmem
      rcases List.mem_cons.mp hmem with h' | h'
      · exact he h'.symm
      · exact ih hrest h'

/-! ### More facts about `fire` -/

theorem fire_nextID (id : Int) (s : ClockState) :
    (fire id s).nextID = s.nextID := by
  unfold fire
  cases lookupTimer id s.timers with
  | none => rfl
  | some td => by_cases h : td.isFn = true <;> simp [h]

theorem fire_timers_fst (id : Int) (s : ClockState) :
    (fire id s).timers.map (fun p => p.1) = s.timers.map (fun p => p.1) := by
  unfold fire
  cases lookupTimer id s.timers with
  | none => rfl
  | some td =>
    by_cases h : td.isFn = true <;> simp [h, updateTimer_map_fst]

theorem triggerOf_fire (s : ClockState) (id id' : Int) :
    triggerOf (fire id s) id' = triggerOf s id' := by
  unfold fire
  cases h : lookupTimer id s.timers with
  | none => rfl
  | some td =>
    by_cases hf : td.isFn = true
    · simp [hf, triggerOf]
    · simp only [hf, if_false, Bool.false_eq_true]
      by_cases he : id' = id
      · subst he
        simp [triggerOf, lookupTimer_update_self, h]
      · simp [triggerOf, lookupTimer_update_ne he]

theorem fire_fireLog {id : Int} {s : ClockState} {td : TimerData}
    (h : lookupTimer id s.timers = some td) :
    (fire id s).fireLog = s.fireLog ++ [(td.trigger, id)] := by
  unfold fire
  rw [h]
  by_cases hf : td.isFn = true <;> simp [hf]

theorem fire_blockedSends_of_clean {id : Int} {s : ClockState} {td : TimerData}
    (h : lookupTimer id s.timers = some td)
    (hclean : td.isFn = false → td.buf = []) :
    (fire id s).blockedSends = s.blockedSends := by
  unfold fire
  rw [h]
  by_cases hf : td.isFn = true
  · simp [hf]
  · have hb : td.buf = [] := hclean (Bool.not_eq_true _ ▸ hf)
    simp [hf, hb]

theorem fire_dispatched_sub (id : Int) (s : ClockState) :
    ∃ l, (fire id s).dispatched = s.dispatched ++ l := by
  unfold fire
  cases lookupTimer id s.timers with
  | none => exact ⟨[], by simp⟩
  | some td =>
    by_cases h : td.isFn = true
    · exact ⟨[id], by simp [h]⟩
    · exact ⟨[], by simp [h]⟩

/-- Looking up any id after a fire only changes the buffer of the fired
timer; the trigger and the mode stay put, and untouched ids keep their
whole record. -/
theorem lookupTimer_fire_ne {id id' : Int} (hne : id' ≠ id) (s : ClockState) :
    lookupTimer id' (fire id s).timers = lookupTimer id' s.timers := by
  unfold fire
  cases lookupTimer id s.timers with
  | none => rfl
  | some td =>
    by_cases h : td.isFn = true
    · simp [h]
    · simp [h, lookupTimer_update_ne hne]

/-! ### State invariants maintained by the clock -/

/-- Every id in the store was handed out by the counter, so `nextID + 1`
is fresh. -/
def KeysBound (s : ClockState) : Prop := ∀ p ∈ s.timers, p.1 ≤ s.nextID

/-- The registry is sorted by `FakeTimer.Less` (strictly: no two entries
compare equal). -/
def SortedPending (s : ClockState) : Prop :=
  s.pending.Pairwise (fun a b => timerLess a b = true)

/-- Every registry entry `(trigger, id)` agrees with the trigger stored for
`id`: a registered timer's trigger does not change while it is pending. -/
def TriggerMatch (s : ClockState) : Prop :=
  ∀ q ∈ s.pending, triggerOf s q.2 = some q.1

/-- Every pending hand-off-mode timer has an empty one-slot buffer. -/
def HandoffClean (s : ClockState) : Prop :=
  ∀ q ∈ s.pending, ∀ td, lookupTimer q.2 s.timers = some td →
    td.isFn = false → td.buf = []

instance (s : ClockState) : Decidable (KeysBound s) := by
  unfold KeysBound; infer_instance

instance (s : ClockState) : Decidable (SortedPending s) := by
  unfold SortedPending; infer_instance

instance (s : ClockState) : Decidable (TriggerMatch s) := by
  unfold TriggerMatch; infer_instance

instance (s : ClockState) : Decidable (HandoffClean s) := by
  unfold HandoffClean; infer_instance

/-! ### The firing loop of `Advance` -/

theorem fireLoop_nil {s : ClockState} (h : s.pending = []) : fireLoop s = s := by
  rw [fireLoop]
  split
  · rfl
  · rename_i q rest heq
    rw [h] at heq
    cases heq

theorem fireLoop_cons {s : ClockState} {q : Int × Int} {rest : List (Int × Int)}
    (h : s.pending = q :: rest) :
    fireLoop s =
      if q.1 ≤ s.now then fireLoop (fire q.2 { s with pending := rest })
      else s := by
  rw [fireLoop]
  split
  · rename_i heq
    rw [h] at heq
    cases heq
  · rename_i q' rest' heq
    rw [h] at heq
    injection heq with h1 h2
    subst h1
    subst h2
    rfl

/-- The loop of `Advance` fires exactly the due prefix of the registry, in
registry order, removing each entry as it goes; `now`, `nextID` and every
stored trigger are untouched. -/
theorem fireLoop_spec :
    ∀ (n : Nat) (s : ClockState), s.pending.length ≤ n →
    (∀ q ∈ s.pending, triggerOf s q.2 = some q.1) →
    (fireLoop s).now = s.now ∧
    (fireLoop s).nextID = s.nextID ∧
    (fireLoop s).pending = s.pending.dropWhile (fun q => decide (q.1 ≤ s.now)) ∧
    (fireLoop s).fireLog =
      s.fireLog ++ s.pending.takeWhile (fun q => decide (q.1 ≤ s.now)) ∧
    (∀ id', triggerOf (fireLoop s) id' = triggerOf s id') := by
  intro n
  induction n with
  | zero =>
    intro s hlen _
    have hp : s.pending = [] := List.length_eq_zero.mp (Nat.le_zero.mp hlen)
    rw [fireLoop_nil hp]
    simp [hp]
  | succ n ih =>
    intro s hlen hmatch
    cases hp : s.pending with
    | nil =>
      rw [fireLoop_nil hp]
      simp [hp]
    | cons q rest =>
      rw [fireLoop_cons hp]
      by_cases hq : q.1 ≤ s.now
      · rw [if_pos hq]
        have hmem : q ∈ s.pending := by rw [hp]; exact List.mem_cons_self _ _
        obtain ⟨td, hl, htd⟩ :
            ∃ td, lookupTimer q.2 s.timers = some td ∧ td.trigger = q.1 := by
          have hm := hmatch q hmem
          unfold triggerOf at hm
          cases hl : lookupTimer q.2 s.timers with
          | none => rw [hl] at hm; simp at hm
          | some td =>
            rw [hl] at hm
            simp only [Option.map_some', Option.some.injEq] at hm
            exact ⟨td, rfl, hm⟩
        have hpend' : (fire q.2 { s with pending := rest }).pending = rest := by
          rw [fire_pending]
        have hnow' : (fire q.2 { s with pending := rest }).now = s.now := by
          rw [fire_now]
        have hnext' : (fire q.2 { s with pending := rest }).nextID = s.nextID := by
          rw [fire_nextID]
        have hl' : lookupTimer q.2
            ({ s with pending := rest } : ClockState).timers = some td := hl
        have hlog' : (fire q.2 { s with pending := rest }).fireLog
            = s.fireLog ++ [q] := by
          rw [fire_fireLog hl', htd]
        have htrig' : ∀ id',
            triggerOf (fire q.2 { s with pending := rest }) id' = triggerOf s id' := by
          intro id'
          rw [triggerOf_fire]
          rfl
        have hmatch' : ∀ q' ∈ (fire q.2 { s with pending := rest }).pending,
            triggerOf (fire q.2 { s with pending := rest }) q'.2 = some q'.1 := by
          intro q' hq'
          rw [htrig']
          rw [hpend'] at hq'
          exact hmatch q' (by rw [hp]; exact List.mem_cons_of_mem _ hq')
        have hlen' : (fire q.2 { s with pending := rest }).pending.length ≤ n := by
          rw [hpend']
          rw [hp] at hlen
          simpa using Nat.lt_succ_iff.mp (Nat.lt_of_lt_of_le (Nat.lt_succ_self _) hlen)
        obtain ⟨h1, h2, h3, h4, h5⟩ := ih _ hlen' hmatch'
        simp only [hpend', hnow', hnext', hlog'] at h1 h2 h3 h4 h5
        refine ⟨h1, h2, ?_, ?_, fun id' => (h5 id').trans (htrig' id')⟩
        · rw [h3, List.dropWhile_cons, if_pos (by simpa using hq)]
        · rw [h4, List.takeWhile_cons, if_pos (by simpa using hq)]
          simp
      · rw [if_neg hq]
        refine ⟨rfl, rfl, ?_, ?_, fun id' => rfl⟩
        · rw [List.dropWhile_cons, if_neg (by simpa using hq)]
          exact hp
        · rw [List.takeWhile_cons, if_neg (by simpa using hq)]
          simp

/-- On a `timerLess`-sorted list, the due entries (`trigger ≤ m`) form a
prefix: taking while due is the same as filtering the due ones. -/
theorem takeWhile_due_eq_filter {l : List (Int × Int)} (m : Int)
    (h : l.Pairwise (fun a b => timerLess a b = true)) :
    l.takeWhile (fun q => decide (q.1 ≤ m)) =
      l.filter (fun q => decide (q.1 ≤ m)) := by
  induction l with
  | nil => rfl
  | cons q rest ih =>
    rw [List.pairwise_cons] at h
    obtain ⟨hq, hrest⟩ := h
    by_cases hqm : q.1 ≤ m
    · rw [List.takeWhile_cons, if_pos (by simpa using hqm),
        List.filter_cons_of_pos (by simpa using hqm), ih hrest]
    · rw [List.takeWhile_cons, if_neg (by simpa using hqm),
        List.filter_cons_of_neg (by simpa using hqm)]
      symm
      rw [List.filter_eq_nil_iff]
      intro b hb
      have : q.1 ≤ b.1 := fst_le_of_timerLess (hq b hb)
      simp only [decide_eq_true_eq]
      omega

/-- On a `timerLess`-sorted list, dropping the due prefix keeps exactly the
entries strictly later than `m`. -/
theorem dropWhile_due_eq_filter {l : List (Int × Int)} (m : Int)
    (h : l.Pairwise (fun a b => timerLess a b = true)) :
    l.dropWhile (fun q => decide (q.1 ≤ m)) =
      l.filter (fun q => decide (m < q.1)) := by
  induction l with
  | nil => rfl
  | cons q rest ih =>
    rw [List.pairwise_cons] at h
    obtain ⟨hq, hrest⟩ := h
    by_cases hqm : q.1 ≤ m
    · rw [List.dropWhile_cons, if_pos (by simpa using hqm),
        List.filter_cons_of_neg (by simp; omega), ih hrest]
    · rw [List.dropWhile_cons, if_neg (by simpa using hqm),
        List.filter_cons_of_pos (by simp; omega)]
      congr 1
      symm
      rw [List.filter_eq_self]
      intro b hb
      have : q.1 ≤ b.1 := fst_le_of_timerLess (hq b hb)
      simp only [decide_eq_true_eq]
      omega

/-- A concrete well-formed clock state used to witness the claim theorems:
two timers created at virtual time 0, a hand-off one due at 1 and a
callback one due at 5. -/
def sampleState : ClockState :=
  { now := 0, nextID := 2,
    timers := [(1, { trigger := 1, isFn := false, buf := [] }),
               (2, { trigger := 5, isFn := true, buf := [] })],
    pending := [(1, 1), (5, 2)],
    fireLog := [], dispatched := [], blockedSends := 0 }

/-- C1: for every clock state satisfying the registry invariants and every
duration `d ≥ 0`, `Advance(d)` first sets `now` to the old `now` plus `d`,
then fires exactly those registered handles whose trigger is at most the
new `now` — appending them to the fire log in ascending `(trigger, id)`
order, all before returning — while the handles with trigger strictly after
the new `now` remain registered, unchanged and in order. -/
theorem C1_advance_fires_due (s : ClockState) (d : Int) (hd : 0 ≤ d)
    (hsort : SortedPending s) (hmatch : TriggerMatch s) :
    ∃ s', advance s d = AdvanceResult.ok s' ∧
      s'.now = s.now + d ∧
      s'.fireLog = s.fireLog ++
        s.pending.filter (fun q => decide (q.1 ≤ s.now + d)) ∧
      (s.pending.filter (fun q => decide (q.1 ≤ s.now + d))).Pairwise
        (fun a b => timerLess a b = true) ∧
      s'.pending = s.pending.filter (fun q => decide (s.now + d < q.1)) := by
  unfold advance
  rw [if_neg (by omega)]
  have hmatch1 : ∀ q ∈ ({ s with now := s.now + d } : ClockState).pending,
      triggerOf { s with now := s.now + d } q.2 = some q.1 := hmatch
  obtain ⟨h1, h2, h3, h4, h5⟩ :=
    fireLoop_spec (({ s with now := s.now + d } : ClockState).pending.length)
      { s with now := s.now + d } le_rfl hmatch1
  refine ⟨_, rfl, ?_, ?_, ?_, ?_⟩
  · exact h1
  · rw [h4]
    exact congrArg _ (takeWhile_due_eq_filter (s.now + d) hsort)
  · exact hsort.sublist (List.filter_sublist _)
  · rw [h3]
    exact dropWhile_due_eq_filter (s.now + d) hsort

/-- Witness for C1 at a concrete state: advancing `sampleState` by 3 fires
the hand-off timer due at 1 and keeps the callback timer due at 5. -/
theorem C1_advance_fires_due_witness :
    ∃ s', advance sampleState 3 = AdvanceResult.ok s' ∧
      s'.now = sampleState.now + 3 ∧
      s'.fireLog = sampleState.fireLog ++
        sampleState.pending.filter (fun q => decide (q.1 ≤ sampleState.now + 3)) ∧
      (sampleState.pending.filter
        (fun q => decide (q.1 ≤ sampleState.now + 3))).Pairwise
        (fun a b => timerLess a b = true) ∧
      s'.pending = sampleState.pending.filter
        (fun q => decide (sampleState.now + 3 < q.1)) :=
  C1_advance_fires_due sampleState 3 (by decide) (by decide) (by decide)

/-- C8: for every state and every `d < 0`, `Advance(d)` is a fatal
precondition violation: it panics, and the state the program holds at the
panic is exactly the input state — `now` unmoved, the registry untouched,
nothing fired (nothing logged, dispatched or sent). -/
theorem C8_advance_negative (s : ClockState) (d : Int) (hd : d < 0) :
    advance s d = AdvanceResult.panicked s := by
  unfold advance
  rw [if_pos hd]

/-- Witness for C8: advancing by -1 from a fresh clock panics with the
state unchanged. -/
theorem C8_advance_negative_witness :
    advance (initClock 0) (-1) = AdvanceResult.panicked (initClock 0) :=
  C8_advance_negative (initClock 0) (-1) (by decide)

/-- C9: `Deadline()` always reports `ok = true`, and reports the earlier of
the context's own deadline and the parent's deadline when the parent
exposes one, else the own deadline. -/
theorem C9_deadline_composition (ctx : FakeDeadlineContext) :
    (ctxDeadline ctx).2 = true ∧
    (ctxDeadline ctx).1 =
      (match ctx.parent.deadline with
       | some pd => min pd ctx.deadline
       | none => ctx.deadline) := by
  unfold ctxDeadline
  cases ctx.parent.deadline with
  | none => exact ⟨rfl, rfl⟩
  | some pd =>
    dsimp only
    by_cases h : pd < ctx.deadline
    · rw [if_pos h]
      exact ⟨rfl, (min_eq_left (le_of_lt h)).symm⟩
    · rw [if_neg h]
      exact ⟨rfl, (min_eq_right (by omega)).symm⟩

/-- C10: `Advance(d)` with `d ≥ 0` terminates, having fired one handle per
loop iteration: the surviving registry is a sublist of the original, and
the original registry size is exactly the number of handles fired plus the
number surviving — each iteration removed one pending timer, and firing
inserted none synchronously. -/
theorem C10_advance_loop_count (s : ClockState) (d : Int) (hd : 0 ≤ d)
    (hmatch : TriggerMatch s) :
    ∃ s', advance s d = AdvanceResult.ok s' ∧
      s'.pending.Sublist s.pending ∧
      s'.pending.length +
        (s.pending.takeWhile (fun q => decide (q.1 ≤ s.now + d))).length
        = s.pending.length ∧
      s'.fireLog.length = s.fireLog.length +
        (s.pending.takeWhile (fun q => decide (q.1 ≤ s.now + d))).length := by
  unfold advance
  rw [if_neg (by omega)]
  have hmatch1 : ∀ q ∈ ({ s with now := s.now + d } : ClockState).pending,
      triggerOf { s with now := s.now + d } q.2 = some q.1 := hmatch
  obtain ⟨h1, h2, h3, h4, h5⟩ :=
    fireLoop_spec (({ s with now := s.now + d } : ClockState).pending.length)
      { s with now := s.now + d } le_rfl hmatch1
  have h3' : (fireLoop { s with now := s.now + d }).pending =
      s.pending.dropWhile (fun q => decide (q.1 ≤ s.now + d)) := h3
  have h4' : (fireLoop { s with now := s.now + d }).fireLog =
      s.fireLog ++ s.pending.takeWhile (fun q => decide (q.1 ≤ s.now + d)) := h4
  refine ⟨_, rfl, ?_, ?_, ?_⟩
  · rw [h3']
    exact List.dropWhile_sublist _
  · rw [h3']
    have := congrArg List.length
      (List.takeWhile_append_dropWhile
        (fun q => decide (q.1 ≤ s.now + d)) s.pending)
    rw [List.length_append] at this
    omega
  · rw [h4', List.length_append]

/-- Witness for C10 at a concrete state. -/
theorem C10_advance_loop_count_witness :
    ∃ s', advance sampleState 3 = AdvanceResult.ok s' ∧
      s'.pending.Sublist sampleState.pending ∧
      s'.pending.length +
        (sampleState.pending.takeWhile
          (fun q => decide (q.1 ≤ sampleState.now + 3))).length
        = sampleState.pending.length ∧
      s'.fireLog.length = sampleState.fireLog.length +
        (sampleState.pending.takeWhile
          (fun q => decide (q.1 ≤ sampleState.now + 3))).length :=
  C10_advance_loop_count sampleState 3 (by decide) (by decide)

/-- The id `nextID + 1` is fresh: looking it up after appending its record
finds exactly the appended record. -/
theorem lookupTimer_fresh_append (s : ClockState) (td : TimerData)
    (hkeys : KeysBound s) :
    lookupTimer (s.nextID + 1) (s.timers ++ [(s.nextID + 1, td)]) = some td := by
  rw [lookupTimer_append_of_none (lookupTimer_eq_none ?_)]
  · simp [lookupTimer]
  · intro p hp
    have := hkeys p hp
    omega

/-- Every registered id was stored, hence is bounded by `nextID`. -/
theorem pending_id_le (s : ClockState) (hkeys : KeysBound s)
    (hmatch : TriggerMatch s) : ∀ q ∈ s.pending, q.2 ≤ s.nextID := by
  intro q hq
  have hm := hmatch q hq
  unfold triggerOf at hm
  cases hl : lookupTimer q.2 s.timers with
  | none => rw [hl] at hm; simp at hm
  | some td => exact hkeys _ (lookupTimer_mem hl)

/-- Creating a fresh timer of either mode: the common behavior of
`NewTimer` and `AfterFunc` after the fresh record is appended and handed
to `addTimer`. -/
theorem fresh_create_spec (s : ClockState) (d : Int) (b : Bool)
    (hkeys : KeysBound s) (hmatch : TriggerMatch s) (t : ClockState)
    (ht : t = addTimer (s.nextID + 1)
      { s with
          nextID := s.nextID + 1,
          timers := s.timers ++
            [(s.nextID + 1,
              ({ trigger := s.now + d, isFn := b, buf := [] } : TimerData))] }) :
    triggerOf t (s.nextID + 1) = some (s.now + d) ∧
    (d ≤ 0 → t.pending = s.pending ∧
       (∀ q ∈ t.pending, q.2 ≠ s.nextID + 1) ∧
       t.fireLog = s.fireLog ++ [(s.now + d, s.nextID + 1)]) ∧
    (0 < d → (s.now + d, s.nextID + 1) ∈ t.pending ∧
       t.pending = insertPending (s.now + d, s.nextID + 1) s.pending ∧
       t.fireLog = s.fireLog) := by
  subst ht
  have hlook : lookupTimer (s.nextID + 1)
      ({ s with
          nextID := s.nextID + 1,
          timers := s.timers ++
            [(s.nextID + 1,
              ({ trigger := s.now + d, isFn := b, buf := [] } : TimerData))] } :
        ClockState).timers
      = some ({ trigger := s.now + d, isFn := b, buf := [] } : TimerData) :=
    lookupTimer_fresh_append s _ hkeys
  unfold addTimer
  rw [hlook]
  dsimp only
  by_cases hd0 : d ≤ 0
  · rw [if_pos (by omega)]
    refine ⟨?_, fun _ => ⟨?_, ?_, ?_⟩, fun hd1 => absurd hd0 (by omega)⟩
    · rw [triggerOf_fire]
      simp [triggerOf, hlook]
    · rw [fire_pending]
    · intro q hq
      rw [fire_pending] at hq
      have : q.2 ≤ s.nextID := pending_id_le s hkeys hmatch q hq
      omega
    · rw [fire_fireLog hlook]
  · rw [if_neg (by omega)]
    refine ⟨?_, fun hd1 => absurd hd1 hd0, fun _ => ⟨?_, ?_, ?_⟩⟩
    · simp [triggerOf, hlook]
    · exact self_mem_insertPending _ _
    · rfl
    · rfl

/-- C2: `NewTimer(d)` and `AfterFunc(d, fn)` both create a handle with
`trigger = now + d` and a fresh id; when that trigger is not strictly after
`now` (`d ≤ 0`) the handle fires immediately — it is logged as fired and no
entry with its id is registered; otherwise it is inserted into the registry
and nothing fires at creation. -/
theorem C2_create_trigger (s : ClockState) (d : Int)
    (hkeys : KeysBound s) (hmatch : TriggerMatch s) :
    ((newTimer d s).2 = s.nextID + 1 ∧
     triggerOf (newTimer d s).1 (s.nextID + 1) = some (s.now + d) ∧
     (d ≤ 0 → (newTimer d s).1.pending = s.pending ∧
        (∀ q ∈ (newTimer d s).1.pending, q.2 ≠ s.nextID + 1) ∧
        (newTimer d s).1.fireLog = s.fireLog ++ [(s.now + d, s.nextID + 1)]) ∧
     (0 < d → (s.now + d, s.nextID + 1) ∈ (newTimer d s).1.pending ∧
        (newTimer d s).1.pending = insertPending (s.now + d, s.nextID + 1) s.pending ∧
        (newTimer d s).1.fireLog = s.fireLog)) ∧
    ((afterFunc d s).2 = s.nextID + 1 ∧
     triggerOf (afterFunc d s).1 (s.nextID + 1) = some (s.now + d) ∧
     (d ≤ 0 → (afterFunc d s).1.pending = s.pending ∧
        (∀ q ∈ (afterFunc d s).1.pending, q.2 ≠ s.nextID + 1) ∧
        (afterFunc d s).1.fireLog = s.fireLog ++ [(s.now + d, s.nextID + 1)]) ∧
     (0 < d → (s.now + d, s.nextID + 1) ∈ (afterFunc d s).1.pending ∧
        (afterFunc d s).1.pending = insertPending (s.now + d, s.nextID + 1) s.pending ∧
        (afterFunc d s).1.fireLog = s.fireLog)) := by
  constructor
  · exact ⟨rfl, fresh_create_spec s d false hkeys hmatch (newTimer d s).1 rfl⟩
  · exact ⟨rfl, fresh_create_spec s d true hkeys hmatch (afterFunc d s).1 rfl⟩

/-- Witness for C2 at a concrete state and duration. -/
theorem C2_create_trigger_witness :
    ((newTimer 7 sampleState).2 = sampleState.nextID + 1 ∧
     triggerOf (newTimer 7 sampleState).1 (sampleState.nextID + 1) =
       some (sampleState.now + 7) ∧
     ((7 : Int) ≤ 0 → (newTimer 7 sampleState).1.pending = sampleState.pending ∧
        (∀ q ∈ (newTimer 7 sampleState).1.pending, q.2 ≠ sampleState.nextID + 1) ∧
        (newTimer 7 sampleState).1.fireLog =
          sampleState.fireLog ++ [(sampleState.now + 7, sampleState.nextID + 1)]) ∧
     ((0 : Int) < 7 →
        (sampleState.now + 7, sampleState.nextID + 1) ∈ (newTimer 7 sampleState).1.pending ∧
        (newTimer 7 sampleState).1.pending =
          insertPending (sampleState.now + 7, sampleState.nextID + 1) sampleState.pending ∧
        (newTimer 7 sampleState).1.fireLog = sampleState.fireLog)) ∧
    ((afterFunc 7 sampleState).2 = sampleState.nextID + 1 ∧
     triggerOf (afterFunc 7 sampleState).1 (sampleState.nextID + 1) =
       some (sampleState.now + 7) ∧
     ((7 : Int) ≤ 0 → (afterFunc 7 sampleState).1.pending = sampleState.pending ∧
        (∀ q ∈ (afterFunc 7 sampleState).1.pending, q.2 ≠ sampleState.nextID + 1) ∧
        (afterFunc 7 sampleState).1.fireLog =
          sampleState.fireLog ++ [(sampleState.now + 7, sampleState.nextID + 1)]) ∧
     ((0 : Int) < 7 →
        (sampleState.now + 7, sampleState.nextID + 1) ∈ (afterFunc 7 sampleState).1.pending ∧
        (afterFunc 7 sampleState).1.pending =
          insertPending (sampleState.now + 7, sampleState.nextID + 1) sampleState.pending ∧
        (afterFunc 7 sampleState).1.fireLog = sampleState.fireLog)) :=
  C2_create_trigger sampleState 7 (by decide) (by decide)

/-! ### The deadline context's one-shot resolution -/

theorem setErrorOnce_of_resolved {ctx : FakeDeadlineContext} {e0 : GoError}
    (h : ctx.err = some e0) (e : GoError) : setErrorOnce e ctx = ctx := by
  unfold setErrorOnce
  rw [if_neg (by simp [h])]

theorem foldl_setErrorOnce_resolved {ctx : FakeDeadlineContext} {e0 : GoError}
    (h : ctx.err = some e0) (es : List GoError) :
    es.foldl (fun c e2 => setErrorOnce e2 c) ctx = ctx := by
  induction es with
  | nil => rfl
  | cons e2 rest ih =>
    rw [List.foldl_cons, setErrorOnce_of_resolved h, ih]

/-- C4: a deadline context resolves at most once, first-writer-wins.
While pending (`err` unset, `done` open) `Err()` is nil; the first
`setErrorOnce` — whether from explicit cancel, the internal timer's
callback, or parent propagation — stores that error, closes `done` (its
one transition from open to closed), and from then on `Err()` returns that
first error permanently: any sequence of later resolution attempts leaves
the context exactly as the first writer left it. -/
theorem C4_resolve_once (ctx : FakeDeadlineContext)
    (hpending : ctx.err = none ∧ ctx.doneClosed = false)
    (e : GoError) (es : List GoError) :
    ctxErr ctx = none ∧
    (setErrorOnce e ctx).err = some e ∧
    (setErrorOnce e ctx).doneClosed = true ∧
    ctxErr (setErrorOnce e ctx) = some e ∧
    es.foldl (fun c e2 => setErrorOnce e2 c) (setErrorOnce e ctx)
      = setErrorOnce e ctx := by
  obtain ⟨h1, h2⟩ := hpending
  have hset : setErrorOnce e ctx = { ctx with err := some e, doneClosed := true } := by
    unfold setErrorOnce
    rw [if_pos h1]
  refine ⟨?_, ?_, ?_, ?_, ?_⟩
  · unfold ctxErr
    rw [h2]
    simp
  · rw [hset]
  · rw [hset]
  · rw [hset]
    unfold ctxErr
    simp
  · exact foldl_setErrorOnce_resolved (by rw [hset]) es

/-- Witness for C4: a fresh pending context canceled once, then hit by two
further resolution attempts. -/
theorem C4_resolve_once_witness :
    ctxErr { parent := { resolved := none, deadline := none },
             doneClosed := false, err := none, deadline := 5 } = none ∧
    (setErrorOnce .canceled
      { parent := { resolved := none, deadline := none },
        doneClosed := false, err := none, deadline := 5 }).err = some .canceled ∧
    (setErrorOnce .canceled
      { parent := { resolved := none, deadline := none },
        doneClosed := false, err := none, deadline := 5 }).doneClosed = true ∧
    ctxErr (setErrorOnce .canceled
      { parent := { resolved := none, deadline := none },
        doneClosed := false, err := none, deadline := 5 }) = some .canceled ∧
    [GoError.deadlineExceeded, GoError.other 3].foldl
      (fun c e2 => setErrorOnce e2 c)
      (setErrorOnce .canceled
        { parent := { resolved := none, deadline := none },
          doneClosed := false, err := none, deadline := 5 })
      = setErrorOnce .canceled
          { parent := { resolved := none, deadline := none },
            doneClosed := false, err := none, deadline := 5 } :=
  C4_resolve_once
    { parent := { resolved := none, deadline := none },
      doneClosed := false, err := none, deadline := 5 }
    (by exact ⟨rfl, rfl⟩) .canceled [GoError.deadlineExceeded, GoError.other 3]

/-- C5: `WithTimeout(parent, d)` with `d ≤ 0` returns a context already
resolved as deadline-exceeded and registers no internal timer (the clock
state is returned untouched); with `d > 0` and a parent that is already
resolved, it returns a context already resolved with the parent's error
verbatim, again registering nothing. -/
theorem C5_withTimeout_immediate (parent : ParentCtx) (d : Int) (s : ClockState) :
    (d ≤ 0 →
      (withTimeout parent d s).state = s ∧
      (withTimeout parent d s).timerID = none ∧
      ctxErr (withTimeout parent d s).ctx = some GoError.deadlineExceeded) ∧
    (∀ pe, 0 < d → parent.resolved = some pe →
      (withTimeout parent d s).state = s ∧
      (withTimeout parent d s).timerID = none ∧
      ctxErr (withTimeout parent d s).ctx = some pe) := by
  constructor
  · intro hd
    unfold withTimeout
    rw [if_pos hd]
    refine ⟨rfl, rfl, ?_⟩
    unfold setErrorOnce ctxErr
    simp
  · intro pe hd hres
    unfold withTimeout
    rw [if_neg (by omega), hres]
    dsimp only
    refine ⟨rfl, rfl, ?_⟩
    unfold setErrorOnce ctxErr
    simp

/-- Witness for C5: one call with `d = 0`, one with `d = 5` under an
already-canceled parent. -/
theorem C5_withTimeout_immediate_witness :
    ((withTimeout { resolved := none, deadline := none } 0 (initClock 0)).state
        = initClock 0 ∧
      (withTimeout { resolved := none, deadline := none } 0 (initClock 0)).timerID
        = none ∧
      ctxErr (withTimeout { resolved := none, deadline := none } 0
        (initClock 0)).ctx = some GoError.deadlineExceeded) ∧
    ((withTimeout { resolved := some .canceled, deadline := none } 5
        (initClock 0)).state = initClock 0 ∧
      (withTimeout { resolved := some .canceled, deadline := none } 5
        (initClock 0)).timerID = none ∧
      ctxErr (withTimeout { resolved := some .canceled, deadline := none } 5
        (initClock 0)).ctx = some .canceled) :=
  ⟨(C5_withTimeout_immediate { resolved := none, deadline := none } 0
      (initClock 0)).1 (by decide),
   (C5_withTimeout_immediate { resolved := some .canceled, deadline := none } 5
      (initClock 0)).2 .canceled (by decide) rfl⟩

/-! ### Branch equations for `addTimer`, `stop` and `reset` -/

theorem addTimer_due {s : ClockState} {id : Int} {td : TimerData}
    (hlook : lookupTimer id s.timers = some td) (hdue : td.trigger ≤ s.now) :
    addTimer id s = fire id s := by
  unfold addTimer
  rw [hlook]
  dsimp only
  rw [if_pos hdue]

theorem addTimer_future {s : ClockState} {id : Int} {td : TimerData}
    (hlook : lookupTimer id s.timers = some td) (hfut : ¬ td.trigger ≤ s.now) :
    addTimer id s = { s with pending := insertPending (td.trigger, id) s.pending } := by
  unfold addTimer
  rw [hlook]
  dsimp only
  rw [if_neg hfut]

/-- In a well-formed state, the only registry entry that can carry a
timer's id is the one whose trigger is the timer's stored trigger. -/
theorem pending_entry_unique {s : ClockState} {id : Int} {td : TimerData}
    (hlook : lookupTimer id s.timers = some td) (hmatch : TriggerMatch s) :
    ∀ t, (t, id) ∈ s.pending → t = td.trigger := by
  intro t ht
  have hm := hmatch (t, id) ht
  unfold triggerOf at hm
  rw [hlook] at hm
  simpa using hm.symm

/-- C7 (amended): `Stop()` returns true iff the handle is pending in the
registry at call time; a true return removes it — no entry for the handle
remains, so it cannot fire from that registration — and an immediately
following `Stop()` (no intervening `Reset`) returns false.  (`Reset` can
re-register the handle, after which `Stop()` may return true again; see the
counterexample.) -/
theorem C7_stop_removes (s : ClockState) (id : Int) (td : TimerData)
    (hlook : lookupTimer id s.timers = some td)
    (hsort : SortedPending s) (hmatch : TriggerMatch s) :
    ((stop id s).2 = true ↔ ∃ t, (t, id) ∈ s.pending) ∧
    (∀ t, (t, id) ∉ (stop id s).1.pending) ∧
    (stop id (stop id s).1).2 = false := by
  have hnodup : s.pending.Nodup := nodup_of_pairwise_timerLess hsort
  by_cases hmem : (td.trigger, id) ∈ s.pending
  · have hs1 : stop id s =
        ({ s with pending := removePending (td.trigger, id) s.pending }, true) := by
      unfold stop
      rw [hlook]
      dsimp only
      rw [if_pos hmem]
    rw [hs1]
    refine ⟨⟨fun _ => ⟨td.trigger, hmem⟩, fun _ => rfl⟩, ?_, ?_⟩
    · intro t ht
      have := pending_entry_unique hlook hmatch t (mem_of_mem_removePending ht)
      subst this
      exact not_mem_removePending_self hnodup ht
    · unfold stop
      rw [show lookupTimer id
          ({ s with pending := removePending (td.trigger, id) s.pending } :
            ClockState).timers = some td from hlook]
      dsimp only
      rw [if_neg (not_mem_removePending_self hnodup)]
  · have hs1 : stop id s = (s, false) := by
      unfold stop
      rw [hlook]
      dsimp only
      rw [if_neg hmem]
    rw [hs1]
    refine ⟨?_, ?_, ?_⟩
    · simp only [Bool.false_eq_true, false_iff]
      rintro ⟨t, ht⟩
      have := pending_entry_unique hlook hmatch t ht
      subst this
      exact hmem ht
    · intro t ht
      have := pending_entry_unique hlook hmatch t ht
      subst this
      exact hmem ht
    · unfold stop
      rw [hlook]
      dsimp only
      rw [if_neg hmem]

/-- Witness for C7's amended theorem at a concrete state. -/
theorem C7_stop_removes_witness :
    ((stop 1 sampleState).2 = true ↔ ∃ t, (t, 1) ∈ sampleState.pending) ∧
    (∀ t, (t, 1) ∉ (stop 1 sampleState).1.pending) ∧
    (stop 1 (stop 1 sampleState).1).2 = false :=
  C7_stop_removes sampleState 1 { trigger := 1, isFn := false, buf := [] }
    (by decide) (by decide) (by decide)

/-- Counterexample to C7 as stated: `Stop()` can return true twice for the
same handle when a `Reset` re-registers it in between — create a timer due
in 5, stop it (true), reset it to 5 again (re-registering it), stop it
again (true again), contradicting "returns true exactly once per handle"
and "every subsequent Stop() call on the same handle returns false". -/
theorem C7_stop_twice_after_reset :
    (stop 1 (newTimer 5 (initClock 0)).1).2 = true ∧
    (stop 1 (reset 1 5 (stop 1 (newTimer 5 (initClock 0)).1).1).1).2 = true := by
  decide

/-- The two observable outcomes of handing a stored timer to `addTimer`:
already due — it fires, leaving the registry as it was — or in the future —
it is inserted and nothing fires. -/
theorem addTimer_cases (s2 : ClockState) (id : Int) (td' : TimerData)
    (hlook : lookupTimer id s2.timers = some td') :
    (td'.trigger ≤ s2.now →
      triggerOf (addTimer id s2) id = some td'.trigger ∧
      (addTimer id s2).pending = s2.pending ∧
      (addTimer id s2).fireLog = s2.fireLog ++ [(td'.trigger, id)]) ∧
    (¬ td'.trigger ≤ s2.now →
      triggerOf (addTimer id s2) id = some td'.trigger ∧
      (addTimer id s2).pending = insertPending (td'.trigger, id) s2.pending ∧
      (addTimer id s2).fireLog = s2.fireLog) := by
  constructor
  · intro hdue
    rw [addTimer_due hlook hdue]
    refine ⟨?_, fire_pending _ _, fire_fireLog hlook⟩
    rw [triggerOf_fire]
    simp [triggerOf, hlook]
  · intro hfut
    rw [addTimer_future hlook hfut]
    exact ⟨by simp [triggerOf, hlook], rfl, rfl⟩

/-- Removing an absent element leaves the list untouched. -/
theorem removePending_of_not_mem {p : Int × Int} {l : List (Int × Int)}
    (h : p ∉ l) : removePending p l = l := by
  induction l with
  | nil => rfl
  | cons q rest ih =>
    have h1 : ¬ q = p := by
      intro he
      apply h
      rw [← he]
      exact List.mem_cons_self _ _
    have h2 : p ∉ rest := fun hm => h (List.mem_cons_of_mem _ hm)
    unfold removePending
    rw [if_neg h1, ih h2]

/-- C6: `Reset(d)` returns true iff the handle is in the registry at call
time, removes it if so, recomputes `trigger = now + d` against the current
virtual time (not the original trigger), and either re-registers the handle
(when the new trigger is strictly after `now`, firing nothing — the
resulting registry is exactly the old one with the handle's old entry
removed and the new one inserted, so the only entry carrying the handle's
id is the one at the new trigger and the stale registration is gone) or
fires it immediately (when it is not, leaving no registry entry for the
handle). -/
theorem C6_reset_reschedules (s : ClockState) (id : Int) (d : Int) (td : TimerData)
    (hlook : lookupTimer id s.timers = some td)
    (hsort : SortedPending s) (hmatch : TriggerMatch s) :
    ((reset id d s).2 = true ↔ ∃ t, (t, id) ∈ s.pending) ∧
    triggerOf (reset id d s).1 id = some (s.now + d) ∧
    (d ≤ 0 → (∀ t, (t, id) ∉ (reset id d s).1.pending) ∧
       (reset id d s).1.fireLog = s.fireLog ++ [(s.now + d, id)]) ∧
    (0 < d →
       (reset id d s).1.pending =
         insertPending (s.now + d, id)
           (removePending (td.trigger, id) s.pending) ∧
       (s.now + d, id) ∈ (reset id d s).1.pending ∧
       (∀ t, (t, id) ∈ (reset id d s).1.pending → t = s.now + d) ∧
       (reset id d s).1.fireLog = s.fireLog) := by
  have hnodup : s.pending.Nodup := nodup_of_pairwise_timerLess hsort
  by_cases hmem : (td.trigger, id) ∈ s.pending
  · have hre : reset id d s =
        (addTimer id
          { s with
              timers := updateTimer id (fun t => { t with trigger := s.now + d })
                s.timers,
              pending := removePending (td.trigger, id) s.pending },
         true) := by
      unfold reset
      rw [hlook]
      dsimp only
      rw [if_pos hmem]
      simp [hmem]
    have hlook2 : lookupTimer id
        ({ s with
            timers := updateTimer id (fun t => { t with trigger := s.now + d })
              s.timers,
            pending := removePending (td.trigger, id) s.pending } :
          ClockState).timers
        = some { td with trigger := s.now + d } := by
      dsimp only
      rw [lookupTimer_update_self, hlook]
      rfl
    obtain ⟨hdue, hfut⟩ := addTimer_cases _ id _ hlook2
    rw [hre]
    by_cases hd0 : d ≤ 0
    · obtain ⟨ht, hp, hf⟩ := hdue (by dsimp only; omega)
      refine ⟨⟨fun _ => ⟨td.trigger, hmem⟩, fun _ => rfl⟩, ht, fun _ => ⟨?_, hf⟩,
        fun hd1 => absurd hd1 (by omega)⟩
      intro t hmem2
      rw [hp] at hmem2
      have := pending_entry_unique hlook hmatch t
        (mem_of_mem_removePending hmem2)
      subst this
      exact not_mem_removePending_self hnodup hmem2
    · obtain ⟨ht, hp, hf⟩ := hfut (by dsimp only; omega)
      refine ⟨⟨fun _ => ⟨td.trigger, hmem⟩, fun _ => rfl⟩, ht,
        fun hd1 => absurd hd1 hd0, fun _ => ⟨hp, ?_, ?_, hf⟩⟩
      · rw [hp]
        exact self_mem_insertPending _ _
      · intro t htm
        rw [hp] at htm
        rcases mem_insertPending htm with heq | hmem2
        · exact congrArg Prod.fst heq
        · have := pending_entry_unique hlook hmatch t
            (mem_of_mem_removePending hmem2)
          subst this
          exact absurd hmem2 (not_mem_removePending_self hnodup)
  · have hre : reset id d s =
        (addTimer id
          { s with
              timers := updateTimer id (fun t => { t with trigger := s.now + d })
                s.timers },
         false) := by
      unfold reset
      rw [hlook]
      dsimp only
      rw [if_neg hmem]
      simp [hmem]
    have hlook2 : lookupTimer id
        ({ s with
            timers := updateTimer id (fun t => { t with trigger := s.now + d })
              s.timers } : ClockState).timers
        = some { td with trigger := s.now + d } := by
      dsimp only
      rw [lookupTimer_update_self, hlook]
      rfl
    obtain ⟨hdue, hfut⟩ := addTimer_cases _ id _ hlook2
    rw [hre]
    by_cases hd0 : d ≤ 0
    · obtain ⟨ht, hp, hf⟩ := hdue (by dsimp only; omega)
      refine ⟨?_, ht, fun _ => ⟨?_, hf⟩, fun hd1 => absurd hd1 (by omega)⟩
      · simp only [Bool.false_eq_true, false_iff]
        rintro ⟨t, hmem2⟩
        have := pending_entry_unique hlook hmatch t hmem2
        subst this
        exact hmem hmem2
      · intro t hmem2
        rw [hp] at hmem2
        have := pending_entry_unique hlook hmatch t hmem2
        subst this
        exact hmem hmem2
    · obtain ⟨ht, hp, hf⟩ := hfut (by dsimp only; omega)
      refine ⟨?_, ht, fun hd1 => absurd hd1 hd0, fun _ => ⟨?_, ?_, ?_, hf⟩⟩
      · simp only [Bool.false_eq_true, false_iff]
        rintro ⟨t, hmem2⟩
        have := pending_entry_unique hlook hmatch t hmem2
        subst this
        exact hmem hmem2
      · rw [removePending_of_not_mem hmem]
        exact hp
      · rw [hp]
        exact self_mem_insertPending _ _
      · intro t htm
        rw [hp] at htm
        rcases mem_insertPending htm with heq | hmem2
        · exact congrArg Prod.fst heq
        · have := pending_entry_unique hlook hmatch t hmem2
          subst this
          exact absurd hmem2 hmem

/-- Witness for C6: resetting the pending hand-off timer of `sampleState`
to fire 10 later. -/
theorem C6_reset_reschedules_witness :
    ((reset 1 10 sampleState).2 = true ↔ ∃ t, (t, 1) ∈ sampleState.pending) ∧
    triggerOf (reset 1 10 sampleState).1 1 = some (sampleState.now + 10) ∧
    ((10 : Int) ≤ 0 → (∀ t, (t, 1) ∉ (reset 1 10 sampleState).1.pending) ∧
       (reset 1 10 sampleState).1.fireLog =
         sampleState.fireLog ++ [(sampleState.now + 10, 1)]) ∧
    ((0 : Int) < 10 →
       (reset 1 10 sampleState).1.pending =
         insertPending (sampleState.now + 10, 1)
           (removePending (1, 1) sampleState.pending) ∧
       (sampleState.now + 10, 1) ∈ (reset 1 10 sampleState).1.pending ∧
       (∀ t, (t, 1) ∈ (reset 1 10 sampleState).1.pending →
         t = sampleState.now + 10) ∧
       (reset 1 10 sampleState).1.fireLog = sampleState.fireLog) :=
  C6_reset_reschedules sampleState 1 10 { trigger := 1, isFn := false, buf := [] }
    (by decide) (by decide) (by decide)

/-! ### Preservation of the invariants, one operation at a time -/

theorem triggerMatch_lookup {s : ClockState} {q : Int × Int}
    (hm : TriggerMatch s) (hq : q ∈ s.pending) :
    ∃ td, lookupTimer q.2 s.timers = some td ∧ td.trigger = q.1 := by
  have h := hm q hq
  unfold triggerOf at h
  cases hl : lookupTimer q.2 s.timers with
  | none => rw [hl] at h; simp at h
  | some td =>
    rw [hl] at h
    simp only [Option.map_some', Option.some.injEq] at h
    exact ⟨td, rfl, h⟩

theorem fire_keysBound {id : Int} {s : ClockState} (hk : KeysBound s) :
    KeysBound (fire id s) := by
  intro p hp
  have h1 : p.1 ∈ (fire id s).timers.map (fun q => q.1) :=
    List.mem_map_of_mem _ hp
  rw [fire_timers_fst] at h1
  obtain ⟨q, hq, hq1⟩ := List.mem_map.mp h1
  rw [fire_nextID]
  exact hq1 ▸ hk q hq

theorem fire_sorted {id : Int} {s : ClockState} (hs : SortedPending s) :
    SortedPending (fire id s) := by
  unfold SortedPending
  rw [fire_pending]
  exact hs

theorem fire_triggerMatch {id : Int} {s : ClockState} (hm : TriggerMatch s) :
    TriggerMatch (fire id s) := by
  intro q hq
  rw [fire_pending] at hq
  rw [triggerOf_fire]
  exact hm q hq

theorem fire_handoffClean {id : Int} {s : ClockState} (hc : HandoffClean s)
    (hne : ∀ q ∈ s.pending, q.2 ≠ id) : HandoffClean (fire id s) := by
  intro q hq td hl hfn
  rw [fire_pending] at hq
  rw [lookupTimer_fire_ne (hne q hq)] at hl
  exact hc q hq td hl hfn

/-- In a sorted, trigger-consistent registry the id at the head occurs
nowhere in the tail. -/
theorem pending_head_ne_rest {s : ClockState} {q : Int × Int}
    {rest : List (Int × Int)} (hp : s.pending = q :: rest)
    (hs : SortedPending s) (hm : TriggerMatch s) :
    ∀ q' ∈ rest, q'.2 ≠ q.2 := by
  intro q' hq' heq
  have hs' : s.pending.Pairwise (fun a b => timerLess a b = true) := hs
  rw [hp, List.pairwise_cons] at hs'
  have hless : timerLess q q' = true := hs'.1 q' hq'
  have h1 : triggerOf s q.2 = some q.1 :=
    hm q (by rw [hp]; exact List.mem_cons_self _ _)
  have h2 : triggerOf s q'.2 = some q'.1 :=
    hm q' (by rw [hp]; exact List.mem_cons_of_mem _ hq')
  rw [heq] at h2
  have h3 : q.1 = q'.1 := by
    have := h1.symm.trans h2
    simpa using this
  have h4 : q = q' := Prod.ext h3 heq.symm
  exact timerLess_irrefl q' (h4 ▸ hless)

/-- The firing loop preserves all four invariants, and — because every due
hand-off timer it fires has an empty buffer — performs no blocking send. -/
theorem fireLoop_inv :
    ∀ (n : Nat) (s : ClockState), s.pending.length ≤ n →
    KeysBound s → SortedPending s → TriggerMatch s → HandoffClean s →
    KeysBound (fireLoop s) ∧ SortedPending (fireLoop s) ∧
    TriggerMatch (fireLoop s) ∧ HandoffClean (fireLoop s) ∧
    (fireLoop s).blockedSends = s.blockedSends := by
  intro n
  induction n with
  | zero =>
    intro s hlen hk hs hm hc
    have hp : s.pending = [] := List.length_eq_zero.mp (Nat.le_zero.mp hlen)
    rw [fireLoop_nil hp]
    exact ⟨hk, hs, hm, hc, rfl⟩
  | succ n ih =>
    intro s hlen hk hs hm hc
    cases hp : s.pending with
    | nil =>
      rw [fireLoop_nil hp]
      exact ⟨hk, hs, hm, hc, rfl⟩
    | cons q rest =>
      rw [fireLoop_cons hp]
      by_cases hq : q.1 ≤ s.now
      · rw [if_pos hq]
        have hmemq : q ∈ s.pending := by
          rw [hp]
          exact List.mem_cons_self _ _
        obtain ⟨td, hl, htd⟩ := triggerMatch_lookup hm hmemq
        have hrestmem : ∀ q' ∈ rest, q' ∈ s.pending := by
          intro q' hq'
          rw [hp]
          exact List.mem_cons_of_mem _ hq'
        have hk0 : KeysBound ({ s with pending := rest } : ClockState) := hk
        have hs0 : SortedPending ({ s with pending := rest } : ClockState) := by
          have hs' : s.pending.Pairwise (fun a b => timerLess a b = true) := hs
          rw [hp, List.pairwise_cons] at hs'
          exact hs'.2
        have hm0 : TriggerMatch ({ s with pending := rest } : ClockState) := by
          intro q' hq'
          exact hm q' (hrestmem q' hq')
        have hc0 : HandoffClean ({ s with pending := rest } : ClockState) := by
          intro q' hq' td' hl' hfn'
          exact hc q' (hrestmem q' hq') td' hl' hfn'
        have hne0 : ∀ q' ∈ ({ s with pending := rest } : ClockState).pending,
            q'.2 ≠ q.2 := pending_head_ne_rest hp hs hm
        have hlen0 : (fire q.2 { s with pending := rest }).pending.length ≤ n := by
          rw [fire_pending]
          rw [hp] at hlen
          simpa using Nat.lt_succ_iff.mp
            (Nat.lt_of_lt_of_le (Nat.lt_succ_self _) hlen)
        have hclean : td.isFn = false → td.buf = [] := fun hfn =>
          hc q hmemq td hl hfn
        obtain ⟨a, b, c, d2, e⟩ := ih (fire q.2 { s with pending := rest }) hlen0
          (fire_keysBound hk0) (fire_sorted hs0) (fire_triggerMatch hm0)
          (fire_handoffClean hc0 hne0)
        refine ⟨a, b, c, d2, ?_⟩
        rw [e]
        exact fire_blockedSends_of_clean hl hclean
      · rw [if_neg hq]
        exact ⟨hk, hs, hm, hc, rfl⟩

/-- Creating a timer of either mode preserves the invariants and performs
no blocking send: an immediate fire writes into the fresh (empty) buffer,
and an insertion registers a fresh empty-buffered handle. -/
theorem create_preserves (s : ClockState) (d : Int) (b : Bool)
    (hk : KeysBound s) (hs : SortedPending s) (hm : TriggerMatch s)
    (hc : HandoffClean s) (t : ClockState)
    (ht : t = addTimer (s.nextID + 1)
      { s with
          nextID := s.nextID + 1,
          timers := s.timers ++
            [(s.nextID + 1,
              ({ trigger := s.now + d, isFn := b, buf := [] } : TimerData))] }) :
    KeysBound t ∧ SortedPending t ∧ TriggerMatch t ∧ HandoffClean t ∧
    t.blockedSends = s.blockedSends := by
  subst ht
  have hlook : lookupTimer (s.nextID + 1)
      ({ s with
          nextID := s.nextID + 1,
          timers := s.timers ++
            [(s.nextID + 1,
              ({ trigger := s.now + d, isFn := b, buf := [] } : TimerData))] } :
        ClockState).timers
      = some ({ trigger := s.now + d, isFn := b, buf := [] } : TimerData) :=
    lookupTimer_fresh_append s _ hk
  have hk1 : KeysBound ({ s with
      nextID := s.nextID + 1,
      timers := s.timers ++
        [(s.nextID + 1,
          ({ trigger := s.now + d, isFn := b, buf := [] } : TimerData))] } :
      ClockState) := by
    intro p hp
    rcases List.mem_append.mp hp with hp' | hp'
    · have := hk p hp'
      show p.1 ≤ s.nextID + 1
      omega
    · rcases List.mem_singleton.mp hp' with rfl
      show s.nextID + 1 ≤ s.nextID + 1
      omega
  have hm1 : TriggerMatch ({ s with
      nextID := s.nextID + 1,
      timers := s.timers ++
        [(s.nextID + 1,
          ({ trigger := s.now + d, isFn := b, buf := [] } : TimerData))] } :
      ClockState) := by
    intro q' hq'
    obtain ⟨td0, hl0, htd0⟩ := triggerMatch_lookup hm hq'
    unfold triggerOf
    rw [show lookupTimer q'.2
        ({ s with
            nextID := s.nextID + 1,
            timers := s.timers ++
              [(s.nextID + 1,
                ({ trigger := s.now + d, isFn := b, buf := [] } : TimerData))] } :
          ClockState).timers = some td0 from lookupTimer_append_of_some hl0]
    simp [htd0]
  have hc1 : HandoffClean ({ s with
      nextID := s.nextID + 1,
      timers := s.timers ++
        [(s.nextID + 1,
          ({ trigger := s.now + d, isFn := b, buf := [] } : TimerData))] } :
      ClockState) := by
    intro q' hq' td1 hl1 hfn1
    obtain ⟨td0, hl0, htd0⟩ := triggerMatch_lookup hm hq'
    rw [show lookupTimer q'.2
        ({ s with
            nextID := s.nextID + 1,
            timers := s.timers ++
              [(s.nextID + 1,
                ({ trigger := s.now + d, isFn := b, buf := [] } : TimerData))] } :
          ClockState).timers = some td0 from lookupTimer_append_of_some hl0]
      at hl1
    obtain rfl : td0 = td1 := by injection hl1
    exact hc q' hq' td0 hl0 hfn1
  have hne1 : ∀ q' ∈ s.pending, q'.2 ≠ s.nextID + 1 := by
    intro q' hq'
    have := pending_id_le s hk hm q' hq'
    omega
  by_cases hd0 : d ≤ 0
  · rw [addTimer_due hlook (by dsimp only; omega)]
    refine ⟨fire_keysBound hk1, fire_sorted hs, fire_triggerMatch hm1,
      fire_handoffClean hc1 hne1, ?_⟩
    exact fire_blockedSends_of_clean hlook (fun _ => rfl)
  · rw [addTimer_future hlook (by dsimp only; omega)]
    refine ⟨hk1, ?_, ?_, ?_, rfl⟩
    · exact insertPending_pairwise _ hs
    · intro q' hq'
      rcases mem_insertPending hq' with rfl | hq''
      · unfold triggerOf
        rw [hlook]
        rfl
      · exact hm1 q' hq''
    · intro q' hq' td1 hl1 hfn1
      rcases mem_insertPending hq' with rfl | hq''
      · rw [show lookupTimer (s.nextID + 1)
            ({ s with
                nextID := s.nextID + 1,
                timers := s.timers ++
                  [(s.nextID + 1,
                    ({ trigger := s.now + d, isFn := b, buf := [] } : TimerData))] } :
              ClockState).timers =
            some ({ trigger := s.now + d, isFn := b, buf := [] } : TimerData)
          from hlook] at hl1
        obtain rfl :
            ({ trigger := s.now + d, isFn := b, buf := [] } : TimerData) = td1 := by
          injection hl1
        rfl
      · exact hc1 q' hq'' td1 hl1 hfn1

/-- `Stop` preserves the invariants and touches no buffer. -/
theorem stop_preserves (s : ClockState) (id : Int)
    (hk : KeysBound s) (hs : SortedPending s) (hm : TriggerMatch s)
    (hc : HandoffClean s) :
    KeysBound (stop id s).1 ∧ SortedPending (stop id s).1 ∧
    TriggerMatch (stop id s).1 ∧ HandoffClean (stop id s).1 ∧
    (stop id s).1.blockedSends = s.blockedSends := by
  unfold stop
  cases hl : lookupTimer id s.timers with
  | none => exact ⟨hk, hs, hm, hc, rfl⟩
  | some td =>
    dsimp only
    by_cases hmem : (td.trigger, id) ∈ s.pending
    · rw [if_pos hmem]
      refine ⟨hk, ?_, ?_, ?_, rfl⟩
      · exact removePending_pairwise _ hs
      · intro q' hq'
        exact hm q' (mem_of_mem_removePending hq')
      · intro q' hq' td1 hl1 hfn1
        exact hc q' (mem_of_mem_removePending hq') td1 hl1 hfn1
    · rw [if_neg hmem]
      exact ⟨hk, hs, hm, hc, rfl⟩

/-- Whether an operation is a `Reset`. -/
def Op.isReset : Op → Bool
  | .reset _ _ => true
  | _ => false

/-- Any single non-`Reset` operation preserves the invariants and performs
no blocking channel send. -/
theorem step_preserves (s : ClockState) (op : Op) (hop : op.isReset = false)
    (hk : KeysBound s) (hs : SortedPending s) (hm : TriggerMatch s)
    (hc : HandoffClean s) :
    KeysBound (step s op) ∧ SortedPending (step s op) ∧
    TriggerMatch (step s op) ∧ HandoffClean (step s op) ∧
    (step s op).blockedSends = s.blockedSends := by
  cases op with
  | newTimer d => exact create_preserves s d false hk hs hm hc _ rfl
  | afterFunc d => exact create_preserves s d true hk hs hm hc _ rfl
  | advance d =>
    by_cases hd : d < 0
    · have hadv : advance s d = AdvanceResult.panicked s := by
        unfold advance
        rw [if_pos hd]
      have hstep : step s (Op.advance d) = s := by
        unfold step
        dsimp only
        rw [hadv]
      rw [hstep]
      exact ⟨hk, hs, hm, hc, rfl⟩
    · have hadv : advance s d =
          AdvanceResult.ok (fireLoop { s with now := s.now + d }) := by
        unfold advance
        rw [if_neg hd]
      have hstep : step s (Op.advance d) =
          fireLoop { s with now := s.now + d } := by
        unfold step
        dsimp only
        rw [hadv]
      rw [hstep]
      exact fireLoop_inv (({ s with now := s.now + d } : ClockState).pending.length)
        { s with now := s.now + d } le_rfl hk hs hm hc
  | stop id => exact stop_preserves s id hk hs hm hc
  | reset id d => simp [Op.isReset] at hop

/-- Running any sequence of non-`Reset` operations preserves the
invariants and performs no blocking send. -/
theorem run_preserves (ops : List Op) : ∀ s : ClockState,
    (∀ op ∈ ops, op.isReset = false) →
    KeysBound s → SortedPending s → TriggerMatch s → HandoffClean s →
    KeysBound (run s ops) ∧ SortedPending (run s ops) ∧
    TriggerMatch (run s ops) ∧ HandoffClean (run s ops) ∧
    (run s ops).blockedSends = s.blockedSends := by
  induction ops with
  | nil =>
    intro s _ hk hs hm hc
    exact ⟨hk, hs, hm, hc, rfl⟩
  | cons op rest ih =>
    intro s hnr hk hs hm hc
    obtain ⟨a, b, c, d2, e⟩ := step_preserves s op
      (hnr op (List.mem_cons_self _ _)) hk hs hm hc
    obtain ⟨a2, b2, c2, d3, e2⟩ := ih (step s op)
      (fun o ho => hnr o (List.mem_cons_of_mem _ ho)) a b c d2
    exact ⟨a2, b2, c2, d3, e2.trans e⟩

/-- C3 (amended): firing a hand-off-mode handle writes the trigger into its
one-slot buffer, and in every execution that never calls `Reset` the buffer
is empty at each fire — a handle fires at most once — so the write always
completes without blocking (no blocked send ever happens).  A `Reset` that
re-fires a handle whose earlier delivery was not drained can find the
buffer occupied, in which case the write blocks; see the counterexample. -/
theorem C3_handoff_nonblocking (t0 : Int) (ops : List Op)
    (hnr : ∀ op ∈ ops, op.isReset = false) :
    (run (initClock t0) ops).blockedSends = 0 := by
  have h := run_preserves ops (initClock t0) hnr
    (fun p hp => absurd hp (List.not_mem_nil p))
    List.Pairwise.nil
    (fun q hq => absurd hq (List.not_mem_nil q))
    (fun q hq => absurd hq (List.not_mem_nil q))
  exact h.2.2.2.2

/-- Witness for C3's amended theorem: a reset-free trace that creates an
immediately-due timer, a future timer, and advances past it. -/
theorem C3_handoff_nonblocking_witness :
    (run (initClock 0) [Op.newTimer 0, Op.newTimer 5, Op.advance 5]).blockedSends
      = 0 :=
  C3_handoff_nonblocking 0 [Op.newTimer 0, Op.newTimer 5, Op.advance 5]
    (by decide)

/-- Counterexample to C3 as stated: `NewTimer(0)` fires immediately into
the empty buffer; `Reset(0)` on the same handle, with the delivery not yet
drained, fires again and finds the one-slot buffer occupied — the channel
send blocks, contradicting "whenever fire() runs ... the one-slot buffer is
empty so the write completes without blocking". -/
theorem C3_blocked_send_after_reset :
    (run (initClock 0) [Op.newTimer 0, Op.reset 1 0]).blockedSends = 1 := by
  decide

end Clock
